import Mathlib

/-!
Shallow embedding of the pricing/conversion logic of the tech99 frontend
exercises:

* the latest-price reduction functions `byLatestPerCurrency` (SwapApp) and
  `getLatestPrices` (SimpleCurrencyConverter);
* the conversion arithmetic (SwapApp's derived values `rate`, `amountOut`,
  `platformFee`, `minReceived`, and `convertCurrency` of the converter);
* the history cap `saveToHistory`;
* the three sum implementations `sum_to_n_a`, `sum_to_n_b`, `sum_to_n_c`.

JavaScript runtime numbers are modelled by `JsNum` (a finite value as an
exact rational, one of the two infinities, or NaN); timestamp strings are
modelled by the integer `new Date(s).getTime()` would yield, since the code
only ever compares those values.  A JS `Map` is modelled by an
insertion-ordered association list with in-place replacement on `set`,
matching `Map`'s iteration-order semantics.
-/

/-- A JavaScript number: a finite value (exact rational stand-in for the
float), one of the two infinities, or NaN. -/
inductive JsNum where
  | finite (q : ℚ)
  | posInf
  | negInf
  | nan
deriving DecidableEq

/-- JS `isFinite(x)` for a number `x`. -/
def JsNum.isFiniteB : JsNum → Bool
  | .finite _ => true
  | _ => false

/-- JS comparison `x > 0` for a number `x` (false for NaN). -/
def JsNum.gtZero : JsNum → Bool
  | .finite q => decide (0 < q)
  | .posInf => true
  | .negInf => false
  | .nan => false

/-- `interface PriceRow` (SwapApp): `currency`, `date` (modelled as the
parsed epoch timestamp), `price`. -/
structure PriceRow where
  currency : String
  date : Int
  price : JsNum
deriving DecidableEq

/-- `interface TokenMeta` (SwapApp): `symbol`, `priceUSD`, `updatedAt`. -/
structure TokenMeta where
  symbol : String
  priceUSD : JsNum
  updatedAt : Int
deriving DecidableEq

/-- `interface Token` (SimpleCurrencyConverter): `currency`, `price`,
`date`. -/
structure Token where
  currency : String
  price : JsNum
  date : Int
deriving DecidableEq

/-- JS `Map.get` on an insertion-ordered association list. -/
def mapGet {α : Type} (m : List (String × α)) (k : String) : Option α :=
  match m with
  | [] => none
  | (k1, v) :: rest => if k1 = k then some v else mapGet rest k

/-- JS `Map.set`: replaces the value of an existing key in place (keeping
its position), otherwise appends the new entry. -/
def mapSet {α : Type} (m : List (String × α)) (k : String) (v : α) :
    List (String × α) :=
  match m with
  | [] => [(k, v)]
  | (k1, v1) :: rest =>
      if k1 = k then (k, v) :: rest else (k1, v1) :: mapSet rest k v

/-- JS `Map.values` (insertion order). -/
def mapValues {α : Type} (m : List (String × α)) : List α := m.map Prod.snd

/-- The loop body both reduction loops share, instantiated below with the
each file's field accessors: keep the stored row for the key unless the
incoming row's timestamp is strictly greater. -/
def latestStep {α : Type} (key : α → String) (time : α → Int)
    (m : List (String × α)) (row : α) : List (String × α) :=
  match mapGet m (key row) with
  | none => mapSet m (key row) row
  | some prev => if time row > time prev then mapSet m (key row) row else m

/-- The per-currency selection the fold performs, restated on one
currency's subsequence of rows: keep the accumulated row unless the next
row's timestamp is strictly greater. -/
def selStep {α : Type} (time : α → Int) (acc : Option α) (row : α) : Option α :=
  match acc with
  | none => some row
  | some prev => if time row > time prev then some row else some prev

/-- Keys of the association-list map, in insertion order. -/
def mapKeys {α : Type} (m : List (String × α)) : List String :=
  m.map Prod.fst

/-- The invariant of the reduction maps: keys are distinct and every
stored row sits under its own currency key. -/
def mapWF {α : Type} (key : α → String) (m : List (String × α)) : Prop :=
  (mapKeys m).Nodup ∧ ∀ p ∈ m, key p.2 = p.1

/-- SwapApp `byLatestPerCurrency`: fold the rows into a per-currency latest
map, keep the values whose price is a finite number `> 0` (in this model
every `price` is a number, so the source's `typeof` check is identically
true), and project each survivor to a `TokenMeta`. -/
def byLatestPerCurrency (rows : List PriceRow) : List TokenMeta :=
  let map := rows.foldl (latestStep PriceRow.currency PriceRow.date) []
  ((mapValues map).filter
      (fun r => r.price.isFiniteB && r.price.gtZero)).map
    (fun r =>
      { symbol := r.currency, priceUSD := r.price, updatedAt := r.date })

/-- SimpleCurrencyConverter `getLatestPrices`: the same per-currency latest
fold, keep the values with `price > 0`, and sort ascending by currency
(`localeCompare` is modelled by the string order; all verified properties
are order-invariant). -/
def getLatestPrices (data : List Token) : List Token :=
  let currencyMap := data.foldl (latestStep Token.currency Token.date) []
  ((mapValues currencyMap).filter
      (fun token => token.price.gtZero)).mergeSort
    (fun a b => decide (a.currency ≤ b.currency))

/-- `interface ConversionHistory`.  The source field names `from` and `to`
are rendered `fromCurrency` and `toCurrency` (`from` is a Lean keyword);
the numeric fields are exact rationals and `timestamp` is the display
string. -/
structure ConversionHistory where
  fromCurrency : String
  toCurrency : String
  amount : ℚ
  result : ℚ
  rate : ℚ
  timestamp : String
deriving DecidableEq

/-- `saveToHistory`: `newHistory = [conversion, ...history].slice(0, 10)`. -/
def saveToHistory (conversion : ConversionHistory)
    (history : List ConversionHistory) : List ConversionHistory :=
  (conversion :: history).take 10

/-- A reduced quote with finite positive price; the price is an exact
rational (the conversion claims all hypothesise finite positive prices). -/
structure CurrencyQuote where
  currency : String
  priceUSD : ℚ
  asOf : Int
deriving DecidableEq

/-- The four derived values of one SwapApp conversion (`platformFee` is
the spec's `feeAmount`). -/
structure ConversionResult where
  rate : ℚ
  amountOut : ℚ
  feeAmount : ℚ
  minReceived : ℚ
deriving DecidableEq

/-- SwapApp's derived-value chain (`rate`, `amountOut`, `platformFee`,
`minReceived` in source order):
`rate = fromQuote.priceUSD / toQuote.priceUSD`, `amountOut = amountIn *
rate`, `feeAmount = amountOut * (feeBps / 10000)`, `minReceived =
amountOut * (1 - slippagePct / 100) - feeAmount`. -/
def convert (fromQuote toQuote : CurrencyQuote)
    (amountIn feeBps slippagePct : ℚ) : ConversionResult :=
  let rate := fromQuote.priceUSD / toQuote.priceUSD
  let amountOut := amountIn * rate
  let feeAmount := amountOut * (feeBps / 10000)
  let minReceived := amountOut * (1 - slippagePct / 100) - feeAmount
  { rate := rate, amountOut := amountOut, feeAmount := feeAmount,
    minReceived := minReceived }

/-- SimpleCurrencyConverter `convertCurrency` numeric core: `rate =
fromToken.price / toToken.price`, `convertedAmount = amountNum * rate`;
returns `(rate, convertedAmount)`. -/
def convertCurrency (fromPrice toPrice amountNum : ℚ) : ℚ × ℚ :=
  let rate := fromPrice / toPrice
  let convertedAmount := amountNum * rate
  (rate, convertedAmount)

/-- `sum_to_n_a`: `[...Array(num).keys()].map(n => n + 1).reduce((prev,
cur) => prev + cur, 0)`. -/
def sum_to_n_a (num : ℕ) : ℕ :=
  ((List.range num).map (fun n => n + 1)).foldl (fun prev cur => prev + cur) 0

/-- `sum_to_n_b`: `for (let i = 1; i <= num; i++) sum += i`. -/
def sum_to_n_b (num : ℕ) : ℕ :=
  (List.range' 1 num).foldl (fun sum i => sum + i) 0

/-- `sum_to_n_c`: `(num * (num + 1)) / 2` with JS real division (the
product of two consecutive integers is even, so the division is exact). -/
def sum_to_n_c (num : ℕ) : ℚ :=
  ((num : ℚ) * ((num : ℚ) + 1)) / 2

lemma sum_to_n_a_succ (n : ℕ) : sum_to_n_a (n + 1) = sum_to_n_a n + (n + 1) := by
  simp [sum_to_n_a, List.range_succ]

lemma sum_to_n_b_succ (n : ℕ) : sum_to_n_b (n + 1) = sum_to_n_b n + (n + 1) := by
  simp [sum_to_n_b, List.range'_concat]
  omega

lemma two_mul_sum_to_n_a (n : ℕ) : 2 * sum_to_n_a n = n * (n + 1) := by
  induction n with
  | zero => rfl
  | succ n ih => rw [sum_to_n_a_succ, Nat.mul_add, ih]; ring

lemma two_mul_sum_to_n_b (n : ℕ) : 2 * sum_to_n_b n = n * (n + 1) := by
  induction n with
  | zero => rfl
  | succ n ih => rw [sum_to_n_b_succ, Nat.mul_add, ih]; ring

lemma mapGet_mapSet_self {α : Type} (m : List (String × α)) (k : String)
    (v : α) : mapGet (mapSet m k v) k = some v := by
  induction m with
  | nil => simp [mapSet, mapGet]
  | cons p rest ih =>
    obtain ⟨k1, v1⟩ := p
    by_cases h : k1 = k
    · simp [mapSet, h, mapGet]
    · simp [mapSet, h, mapGet, ih]

lemma mapGet_mapSet_ne {α : Type} (m : List (String × α)) (k c : String)
    (v : α) (h : k ≠ c) : mapGet (mapSet m k v) c = mapGet m c := by
  induction m with
  | nil => simp [mapSet, mapGet, h]
  | cons p rest ih =>
    obtain ⟨k1, v1⟩ := p
    by_cases h1 : k1 = k
    · subst h1; simp [mapSet, mapGet, h]
    · simp [mapSet, mapGet, h1, ih]

lemma mapGet_latestStep_self {α : Type} (key : α → String) (time : α → Int)
    (m : List (String × α)) (a : α) :
    mapGet (latestStep key time m a) (key a) =
      selStep time (mapGet m (key a)) a := by
  unfold latestStep selStep
  cases hm : mapGet m (key a) with
  | none => simp [mapGet_mapSet_self]
  | some prev =>
    by_cases ht : time a > time prev
    · simp [ht, mapGet_mapSet_self]
    · simp [ht, hm]

lemma mapGet_latestStep_ne {α : Type} (key : α → String) (time : α → Int)
    (m : List (String × α)) (a : α) (c : String) (h : key a ≠ c) :
    mapGet (latestStep key time m a) c = mapGet m c := by
  unfold latestStep
  cases hm : mapGet m (key a) with
  | none => simp [mapGet_mapSet_ne _ _ _ _ h]
  | some prev =>
    by_cases ht : time a > time prev
    · simp [ht, mapGet_mapSet_ne _ _ _ _ h]
    · simp [ht]

lemma mapGet_foldl_latestStep {α : Type} (key : α → String) (time : α → Int)
    (rows : List α) :
    ∀ (m : List (String × α)) (c : String),
      mapGet (rows.foldl (latestStep key time) m) c =
        (rows.filter (fun a => decide (key a = c))).foldl (selStep time)
          (mapGet m c) := by
  induction rows with
  | nil => intro m c; rfl
  | cons a rows ih =>
    intro m c
    rw [List.foldl_cons, ih, List.filter_cons]
    by_cases h : key a = c
    · subst h
      rw [mapGet_latestStep_self]
      simp
    · rw [mapGet_latestStep_ne key time m a c h]
      simp [h]

lemma mapGet_eq_none_iff {α : Type} (m : List (String × α)) (k : String) :
    mapGet m k = none ↔ k ∉ mapKeys m := by
  induction m with
  | nil => simp [mapGet, mapKeys]
  | cons p rest ih =>
    obtain ⟨k1, v1⟩ := p
    by_cases h : k1 = k
    · subst h; simp [mapGet, mapKeys]
    · simp [mapGet, mapKeys, h, ih, Ne.symm h]

lemma mapKeys_cons {α : Type} (k1 : String) (v1 : α)
    (rest : List (String × α)) :
    mapKeys ((k1, v1) :: rest) = k1 :: mapKeys rest := rfl

lemma mapKeys_mapSet {α : Type} (m : List (String × α)) (k : String)
    (v : α) :
    mapKeys (mapSet m k v) =
      if k ∈ mapKeys m then mapKeys m else mapKeys m ++ [k] := by
  induction m with
  | nil => simp [mapSet, mapKeys]
  | cons p rest ih =>
    obtain ⟨k1, v1⟩ := p
    by_cases h : k1 = k
    · subst h; simp [mapSet, mapKeys_cons]
    · have hs : mapSet ((k1, v1) :: rest) k v = (k1, v1) :: mapSet rest k v := by
        simp [mapSet, h]
      rw [hs, mapKeys_cons, mapKeys_cons, ih]
      by_cases h2 : k ∈ mapKeys rest <;> simp [h2, Ne.symm h]

lemma mem_mapSet {α : Type} {m : List (String × α)} {k : String} {v : α}
    {p : String × α} (hp : p ∈ mapSet m k v) : p = (k, v) ∨ p ∈ m := by
  induction m with
  | nil => simpa [mapSet] using hp
  | cons q rest ih =>
    obtain ⟨k1, v1⟩ := q
    by_cases h : k1 = k
    · subst h
      rcases (by simpa [mapSet] using hp : p = (k1, v) ∨ p ∈ rest) with h1 | h1
      · exact Or.inl h1
      · exact Or.inr (List.mem_cons_of_mem _ h1)
    · rcases (by simpa [mapSet, h] using hp : p = (k1, v1) ∨ p ∈ mapSet rest k v)
        with h1 | h1
      · exact Or.inr (by simp [h1])
      · rcases ih h1 with h2 | h2
        · exact Or.inl h2
        · exact Or.inr (List.mem_cons_of_mem _ h2)

lemma mapWF_nil {α : Type} (key : α → String) :
    mapWF key ([] : List (String × α)) :=
  ⟨List.nodup_nil, by simp⟩

lemma mapWF_mapSet_untouched {α : Type} {key : α → String}
    {m : List (String × α)} (hm : mapWF key m) (a : α) :
    ∀ p ∈ mapSet m (key a) a, key p.2 = p.1 := by
  intro p hp
  rcases mem_mapSet hp with rfl | hp2
  · rfl
  · exact hm.2 p hp2

lemma mapWF_latestStep {α : Type} {key : α → String} {time : α → Int}
    {m : List (String × α)} (hm : mapWF key m) (a : α) :
    mapWF key (latestStep key time m a) := by
  cases hg : mapGet m (key a) with
  | none =>
    have hred : latestStep key time m a = mapSet m (key a) a := by
      unfold latestStep; rw [hg]
    rw [hred]
    refine ⟨?_, mapWF_mapSet_untouched hm a⟩
    have hk : key a ∉ mapKeys m := (mapGet_eq_none_iff m (key a)).mp hg
    rw [mapKeys_mapSet, if_neg hk]
    refine hm.1.append (List.nodup_singleton _) ?_
    intro x hx hx2
    rcases (by simpa using hx2 : x = key a) with rfl
    exact hk hx
  | some prev =>
    have hred : latestStep key time m a =
        if time a > time prev then mapSet m (key a) a else m := by
      unfold latestStep; rw [hg]
    rw [hred]
    by_cases ht : time a > time prev
    · rw [if_pos ht]
      refine ⟨?_, mapWF_mapSet_untouched hm a⟩
      have hk : key a ∈ mapKeys m := by
        by_contra hk
        rw [← mapGet_eq_none_iff m (key a)] at hk
        simp [hk] at hg
      rw [mapKeys_mapSet, if_pos hk]
      exact hm.1
    · rw [if_neg ht]; exact hm

lemma mapWF_foldl_latestStep {α : Type} (key : α → String) (time : α → Int)
    (rows : List α) :
    ∀ m, mapWF key m → mapWF key (rows.foldl (latestStep key time) m) := by
  induction rows with
  | nil => intro m hm; exact hm
  | cons a rows ih => intro m hm; exact ih _ (mapWF_latestStep hm a)

lemma mapGet_of_mem_WF {α : Type} {key : α → String}
    {m : List (String × α)} (hm : mapWF key m) {k : String} {v : α}
    (hp : (k, v) ∈ m) : mapGet m k = some v := by
  induction m with
  | nil => simp at hp
  | cons q rest ih =>
    obtain ⟨k1, v1⟩ := q
    have hnd := hm.1
    rw [mapKeys_cons] at hnd
    have hrest : mapWF key rest :=
      ⟨(List.nodup_cons.mp hnd).2, fun p hp2 => hm.2 p (List.mem_cons_of_mem _ hp2)⟩
    rcases List.mem_cons.mp hp with heq | hmem
    · have hk : k = k1 := congrArg Prod.fst heq
      have hv : v = v1 := congrArg Prod.snd heq
      subst hk; subst hv
      simp [mapGet]
    · have hkmem : k ∈ mapKeys rest := List.mem_map_of_mem Prod.fst hmem
      have hne : k1 ≠ k := by
        intro h; subst h
        exact (List.nodup_cons.mp hnd).1 hkmem
      simp [mapGet, hne, ih hrest hmem]

lemma mapGet_mem {α : Type} {m : List (String × α)} {k : String} {v : α}
    (h : mapGet m k = some v) : (k, v) ∈ m := by
  induction m with
  | nil => simp [mapGet] at h
  | cons q rest ih =>
    obtain ⟨k1, v1⟩ := q
    by_cases h1 : k1 = k
    · subst h1
      have hv : v1 = v := by simpa [mapGet] using h
      subst hv
      exact List.mem_cons_self _ _
    · have h2 : mapGet rest k = some v := by simpa [mapGet, h1] using h
      exact List.mem_cons_of_mem _ (ih h2)

lemma mem_foldl_latestStep {α : Type} (key : α → String) (time : α → Int)
    (rows : List α) :
    ∀ (m : List (String × α)) (p : String × α),
      p ∈ rows.foldl (latestStep key time) m → p ∈ m ∨ p.2 ∈ rows := by
  induction rows with
  | nil => intro m p hp; exact Or.inl hp
  | cons a rows ih =>
    intro m p hp
    rcases ih (latestStep key time m a) p hp with h | h
    · cases hg : mapGet m (key a) with
      | none =>
        have hred : latestStep key time m a = mapSet m (key a) a := by
          unfold latestStep; rw [hg]
        rw [hred] at h
        rcases mem_mapSet h with rfl | h2
        · exact Or.inr (by simp)
        · exact Or.inl h2
      | some prev =>
        have hred : latestStep key time m a =
            if time a > time prev then mapSet m (key a) a else m := by
          unfold latestStep; rw [hg]
        rw [hred] at h
        by_cases ht : time a > time prev
        · rw [if_pos ht] at h
          rcases mem_mapSet h with rfl | h2
          · exact Or.inr (by simp)
          · exact Or.inl h2
        · rw [if_neg ht] at h; exact Or.inl h
    · exact Or.inr (List.mem_cons_of_mem _ h)

lemma mapValues_map_key {α : Type} {key : α → String}
    {m : List (String × α)} (hm : mapWF key m) :
    (mapValues m).map key = mapKeys m := by
  unfold mapValues mapKeys
  rw [List.map_map]
  exact List.map_congr_left (fun p hp => hm.2 p hp)

lemma mem_mapValues {α : Type} {m : List (String × α)} {v : α}
    (h : v ∈ mapValues m) : ∃ k, (k, v) ∈ m := by
  rcases List.mem_map.mp h with ⟨p, hp, rfl⟩
  exact ⟨p.1, hp⟩

lemma mapValues_mem {α : Type} {m : List (String × α)} {k : String} {v : α}
    (h : (k, v) ∈ m) : v ∈ mapValues m :=
  List.mem_map_of_mem Prod.snd h

/-- Claim C9: the three sum implementations agree for every non-negative
integer `n`: `sum_to_n_a n`, `sum_to_n_b n` and `sum_to_n_c n` all equal
the sum of the integers from 0 to `n`, that is `n * (n + 1) / 2`. -/
theorem C9_sum_implementations_agree (n : ℕ) :
    (sum_to_n_a n : ℚ) = sum_to_n_c n ∧
    (sum_to_n_b n : ℚ) = sum_to_n_c n ∧
    sum_to_n_c n = ((n : ℚ) * ((n : ℚ) + 1)) / 2 ∧
    sum_to_n_a n = ∑ i ∈ Finset.range (n + 1), i := by
  have ha : ((2 : ℚ)) * (sum_to_n_a n : ℚ) = (n : ℚ) * ((n : ℚ) + 1) := by
    exact_mod_cast two_mul_sum_to_n_a n
  have hb : ((2 : ℚ)) * (sum_to_n_b n : ℚ) = (n : ℚ) * ((n : ℚ) + 1) := by
    exact_mod_cast two_mul_sum_to_n_b n
  refine ⟨?_, ?_, rfl, ?_⟩
  · rw [sum_to_n_c]; linarith
  · rw [sum_to_n_c]; linarith
  · have hg : (∑ i ∈ Finset.range (n + 1), i) * 2 = (n + 1) * n :=
      Finset.sum_range_id_mul_two (n + 1)
    have h2 : 2 * sum_to_n_a n = 2 * (∑ i ∈ Finset.range (n + 1), i) := by
      rw [two_mul_sum_to_n_a, Nat.mul_comm 2, hg]; ring
    exact Nat.eq_of_mul_eq_mul_left (by norm_num) h2

/-- Claim C8: for every existing history list and every new conversion
record, `saveToHistory` yields a list of length at most 10 whose first
element is the conversion just saved (newest first). -/
theorem C8_saveToHistory_cap_and_order (conversion : ConversionHistory)
    (history : List ConversionHistory) :
    (saveToHistory conversion history).length ≤ 10 ∧
    (saveToHistory conversion history).head? = some conversion := by
  constructor
  · exact List.length_take_le 10 _
  · rfl

lemma byLatestPerCurrency_eq (rows : List PriceRow) :
    byLatestPerCurrency rows =
      ((mapValues (rows.foldl (latestStep PriceRow.currency PriceRow.date)
          [])).filter (fun r => r.price.isFiniteB && r.price.gtZero)).map
        (fun r =>
          { symbol := r.currency, priceUSD := r.price,
            updatedAt := r.date }) := rfl

lemma getLatestPrices_eq (data : List Token) :
    getLatestPrices data =
      ((mapValues (data.foldl (latestStep Token.currency Token.date)
          [])).filter (fun token => token.price.gtZero)).mergeSort
        (fun a b => decide (a.currency ≤ b.currency)) := rfl

lemma getLatestPrices_singleton (t : Token) (h : t.price.gtZero = true) :
    getLatestPrices [t] = [t] := by
  rw [getLatestPrices_eq]
  have h1 : (mapValues ([t].foldl (latestStep Token.currency Token.date)
      [])).filter (fun token => token.price.gtZero) = [t] := by
    simp [latestStep, mapGet, mapSet, mapValues, h]
  rw [h1]
  exact List.mergeSort_singleton t

lemma byLatest_mapWF (rows : List PriceRow) :
    mapWF PriceRow.currency
      (rows.foldl (latestStep PriceRow.currency PriceRow.date) []) :=
  mapWF_foldl_latestStep _ _ rows [] (mapWF_nil _)

lemma conv_mapWF (data : List Token) :
    mapWF Token.currency
      (data.foldl (latestStep Token.currency Token.date) []) :=
  mapWF_foldl_latestStep _ _ data [] (mapWF_nil _)

lemma byLatest_mapGet (rows : List PriceRow) (c : String) :
    mapGet (rows.foldl (latestStep PriceRow.currency PriceRow.date) []) c =
      (rows.filter (fun r => decide (r.currency = c))).foldl
        (selStep PriceRow.date) none := by
  rw [mapGet_foldl_latestStep]; rfl

lemma conv_mapGet (data : List Token) (d : String) :
    mapGet (data.foldl (latestStep Token.currency Token.date) []) d =
      (data.filter (fun t => decide (t.currency = d))).foldl
        (selStep Token.date) none := by
  rw [mapGet_foldl_latestStep]; rfl

lemma byLatest_lookup_out (rows : List PriceRow) (c : String) (r : PriceRow)
    (hg : mapGet (rows.foldl (latestStep PriceRow.currency PriceRow.date)
      []) c = some r) :
    (∀ q ∈ byLatestPerCurrency rows, q.symbol = c →
        q = { symbol := r.currency, priceUSD := r.price,
              updatedAt := r.date }) ∧
    ((r.price.isFiniteB && r.price.gtZero) = true →
        ({ symbol := r.currency, priceUSD := r.price,
           updatedAt := r.date } : TokenMeta) ∈ byLatestPerCurrency rows) := by
  have hwf := byLatest_mapWF rows
  have hmem : (c, r) ∈
      rows.foldl (latestStep PriceRow.currency PriceRow.date) [] :=
    mapGet_mem hg
  constructor
  · intro q hq hqc
    rw [byLatestPerCurrency_eq] at hq
    rcases List.mem_map.mp hq with ⟨s, hs, rfl⟩
    have hsv : s ∈ mapValues
        (rows.foldl (latestStep PriceRow.currency PriceRow.date) []) :=
      List.mem_of_mem_filter hs
    rcases mem_mapValues hsv with ⟨k, hks⟩
    have hk : s.currency = k := hwf.2 _ hks
    have hsc : s.currency = c := hqc
    have hkc : k = c := hk.symm.trans hsc
    subst hkc
    have hgs : mapGet (rows.foldl (latestStep PriceRow.currency
        PriceRow.date) []) k = some s := mapGet_of_mem_WF hwf hks
    have : s = r := by
      have := hgs.symm.trans hg
      exact Option.some.inj this
    subst this
    rfl
  · intro hvalid
    have hval : r ∈ mapValues
        (rows.foldl (latestStep PriceRow.currency PriceRow.date) []) :=
      mapValues_mem hmem
    have hf : r ∈ (mapValues (rows.foldl (latestStep PriceRow.currency
        PriceRow.date) [])).filter
          (fun x => x.price.isFiniteB && x.price.gtZero) :=
      List.mem_filter.mpr ⟨hval, hvalid⟩
    rw [byLatestPerCurrency_eq]
    exact List.mem_map_of_mem _ hf

lemma conv_lookup_out (data : List Token) (d : String) (t : Token)
    (hg : mapGet (data.foldl (latestStep Token.currency Token.date) []) d =
      some t) :
    (∀ q ∈ getLatestPrices data, q.currency = d → q = t) ∧
    (t.price.gtZero = true → t ∈ getLatestPrices data) := by
  have hwf := conv_mapWF data
  have hmem : (d, t) ∈
      data.foldl (latestStep Token.currency Token.date) [] := mapGet_mem hg
  constructor
  · intro q hq hqd
    rw [getLatestPrices_eq] at hq
    have hq2 := List.mem_mergeSort.mp hq
    have hqv : q ∈ mapValues
        (data.foldl (latestStep Token.currency Token.date) []) :=
      List.mem_of_mem_filter hq2
    rcases mem_mapValues hqv with ⟨k, hks⟩
    have hk : q.currency = k := hwf.2 _ hks
    have hkd : k = d := hk.symm.trans hqd
    subst hkd
    have hgs : mapGet (data.foldl (latestStep Token.currency Token.date)
        []) k = some q := mapGet_of_mem_WF hwf hks
    exact Option.some.inj (hgs.symm.trans hg)
  · intro hvalid
    have hval : t ∈ mapValues
        (data.foldl (latestStep Token.currency Token.date) []) :=
      mapValues_mem hmem
    have hf : t ∈ (mapValues (data.foldl (latestStep Token.currency
        Token.date) [])).filter (fun x => x.price.gtZero) :=
      List.mem_filter.mpr ⟨hval, hvalid⟩
    rw [getLatestPrices_eq]
    exact List.mem_mergeSort.mpr hf

/-- Claim C4: for every input sequence, each reduction output contains at
most one quote per distinct currency: the currency values of
`byLatestPerCurrency` and of `getLatestPrices` are unique keys within one
output. -/
theorem C4_output_currencies_unique (rows : List PriceRow)
    (data : List Token) :
    ((byLatestPerCurrency rows).map TokenMeta.symbol).Nodup ∧
    ((getLatestPrices data).map Token.currency).Nodup := by
  constructor
  · have hwf := byLatest_mapWF rows
    have hval : ((mapValues (rows.foldl (latestStep PriceRow.currency
        PriceRow.date) [])).map PriceRow.currency).Nodup := by
      rw [mapValues_map_key hwf]; exact hwf.1
    have hsub : List.Sublist
        (((mapValues (rows.foldl (latestStep PriceRow.currency
          PriceRow.date) [])).filter
            (fun r => r.price.isFiniteB && r.price.gtZero)).map
              PriceRow.currency)
        ((mapValues (rows.foldl (latestStep PriceRow.currency
          PriceRow.date) [])).map PriceRow.currency) :=
      (List.filter_sublist _).map _
    have hnd := hval.sublist hsub
    rw [byLatestPerCurrency_eq, List.map_map]
    exact hnd
  · have hwf := conv_mapWF data
    have hval : ((mapValues (data.foldl (latestStep Token.currency
        Token.date) [])).map Token.currency).Nodup := by
      rw [mapValues_map_key hwf]; exact hwf.1
    have hsub : List.Sublist
        (((mapValues (data.foldl (latestStep Token.currency
          Token.date) [])).filter (fun t => t.price.gtZero)).map
              Token.currency)
        ((mapValues (data.foldl (latestStep Token.currency
          Token.date) [])).map Token.currency) :=
      (List.filter_sublist _).map _
    have hnd := hval.sublist hsub
    rw [getLatestPrices_eq]
    have hperm := (List.mergeSort_perm ((mapValues (data.foldl
        (latestStep Token.currency Token.date) [])).filter
          (fun token => token.price.gtZero))
        (fun a b => decide (a.currency ≤ b.currency))).map Token.currency
    exact hperm.nodup_iff.mpr hnd

/-- Claim C2 counterexample: a record whose price is `+Infinity` (hence
non-finite) is the only record for its currency, yet `getLatestPrices`
keeps it: the output is that record itself, so a non-finite price does
appear in a reduction output. -/
theorem C2_counterexample_posInf_in_output :
    getLatestPrices
        [{ currency := "BAD", price := JsNum.posInf, date := 0 }] =
      [{ currency := "BAD", price := JsNum.posInf, date := 0 }] ∧
    JsNum.isFiniteB JsNum.posInf = false :=
  ⟨getLatestPrices_singleton
      { currency := "BAD", price := JsNum.posInf, date := 0 } rfl, rfl⟩

/-- Claim C2 (amended): `byLatestPerCurrency` never outputs a record whose
price is non-finite or not strictly positive; `getLatestPrices` never
outputs a record whose price fails the JS test `price > 0` (NaN,
`-Infinity` or a finite value `<= 0`), but it does not test finiteness, so
a `+Infinity` price can appear there and the original claim holds only for
`byLatestPerCurrency`. -/
theorem C2_amended_invalid_prices_excluded (rows : List PriceRow)
    (data : List Token) (q : TokenMeta) (t : Token)
    (hq : q ∈ byLatestPerCurrency rows) (ht : t ∈ getLatestPrices data) :
    (q.priceUSD.isFiniteB = true ∧ q.priceUSD.gtZero = true) ∧
    t.price.gtZero = true := by
  constructor
  · rw [byLatestPerCurrency_eq] at hq
    rcases List.mem_map.mp hq with ⟨s, hs, rfl⟩
    have h2 := List.of_mem_filter hs
    have h3 : s.price.isFiniteB = true ∧ s.price.gtZero = true := by
      simpa using h2
    exact h3
  · rw [getLatestPrices_eq] at ht
    have ht2 := List.mem_mergeSort.mp ht
    have ht3 := List.of_mem_filter ht2
    exact ht3

theorem C2_amended_invalid_prices_excluded_witness :
    (({ symbol := "A", priceUSD := JsNum.finite 5, updatedAt := 1 } :
        TokenMeta) ∈ byLatestPerCurrency
          [{ currency := "A", date := 1, price := JsNum.finite 5 }] ∧
      ({ currency := "B", price := JsNum.finite 3, date := 2 } : Token) ∈
        getLatestPrices
          [{ currency := "B", price := JsNum.finite 3, date := 2 }]) ∧
    (((JsNum.finite 5).isFiniteB = true ∧ (JsNum.finite 5).gtZero = true) ∧
      (JsNum.finite 3).gtZero = true) := by
  have h1 : ({ symbol := "A", priceUSD := JsNum.finite 5, updatedAt := 1 } :
      TokenMeta) ∈ byLatestPerCurrency
        [{ currency := "A", date := 1, price := JsNum.finite 5 }] := by
    decide
  have h2 : ({ currency := "B", price := JsNum.finite 3, date := 2 } :
      Token) ∈ getLatestPrices
        [{ currency := "B", price := JsNum.finite 3, date := 2 }] := by
    rw [getLatestPrices_singleton
      { currency := "B", price := JsNum.finite 3, date := 2 } (by decide)]
    exact List.mem_singleton_self _
  exact ⟨⟨h1, h2⟩, C2_amended_invalid_prices_excluded _ _ _ _ h1 h2⟩

/-- Claim C7 counterexample: an input whose only row is malformed
(non-finite price `+Infinity`) is not silently excluded by
`getLatestPrices`: the output is nonempty and carries the malformed row. -/
theorem C7_counterexample_malformed_not_excluded :
    getLatestPrices
        [{ currency := "EVIL", price := JsNum.posInf, date := 5 }] ≠ [] ∧
    JsNum.isFiniteB JsNum.posInf = false := by
  refine ⟨?_, rfl⟩
  rw [getLatestPrices_singleton
    { currency := "EVIL", price := JsNum.posInf, date := 5 } rfl]
  simp

/-- Claim C7 (amended): both reductions are total functions (no error for
any input); the empty input yields the empty output; and rows failing a
reduction's own price filter are silently excluded — for
`byLatestPerCurrency` every row with non-finite or non-positive price, for
`getLatestPrices` only rows failing JS `price > 0`, so a `+Infinity` row
is retained there rather than excluded. -/
theorem C7_amended_no_error_silent_exclusion (rows : List PriceRow)
    (data : List Token)
    (hrows : rows.all
      (fun r => !(r.price.isFiniteB && r.price.gtZero)) = true)
    (hdata : data.all (fun t => !t.price.gtZero) = true) :
    byLatestPerCurrency [] = [] ∧ getLatestPrices [] = [] ∧
    byLatestPerCurrency rows = [] ∧ getLatestPrices data = [] := by
  refine ⟨rfl, ?_, ?_, ?_⟩
  · rw [getLatestPrices_eq]
    exact List.mergeSort_nil
  · rw [byLatestPerCurrency_eq]
    have hfil : (mapValues (rows.foldl (latestStep PriceRow.currency
        PriceRow.date) [])).filter
          (fun r => r.price.isFiniteB && r.price.gtZero) = [] := by
      rw [List.filter_eq_nil_iff]
      intro r hr
      rcases mem_mapValues hr with ⟨k, hk⟩
      rcases mem_foldl_latestStep _ _ rows [] _ hk with h | h
      · simp at h
      · have hbad := List.all_eq_true.mp hrows _ h
        simp only [Bool.not_eq_eq_eq_not, Bool.not_true] at hbad
        simp [hbad]
    rw [hfil]
    rfl
  · rw [getLatestPrices_eq]
    have hfil : (mapValues (data.foldl (latestStep Token.currency
        Token.date) [])).filter (fun token => token.price.gtZero) = [] := by
      rw [List.filter_eq_nil_iff]
      intro t htm
      rcases mem_mapValues htm with ⟨k, hk⟩
      rcases mem_foldl_latestStep _ _ data [] _ hk with h | h
      · simp at h
      · have hbad := List.all_eq_true.mp hdata _ h
        simp only [Bool.not_eq_eq_eq_not, Bool.not_true] at hbad
        simp [hbad]
    rw [hfil]
    exact List.mergeSort_nil

theorem C7_amended_no_error_silent_exclusion_witness :
    (([({ currency := "A", date := 0, price := JsNum.finite (-1) } :
          PriceRow)].all
        (fun r => !(r.price.isFiniteB && r.price.gtZero)) = true) ∧
      ([({ currency := "B", price := JsNum.nan, date := 0 } : Token)].all
        (fun t => !t.price.gtZero) = true)) ∧
    (byLatestPerCurrency [] = [] ∧ getLatestPrices [] = [] ∧
      byLatestPerCurrency
        [{ currency := "A", date := 0, price := JsNum.finite (-1) }] = [] ∧
      getLatestPrices
        [{ currency := "B", price := JsNum.nan, date := 0 }] = []) :=
  ⟨⟨by decide, by decide⟩,
    C7_amended_no_error_silent_exclusion _ _ (by decide) (by decide)⟩

/-- Claim C3: when a currency's observations are exactly two rows with
timestamps T1 < T2, then — in either input order — every output quote for
that currency carries the later timestamp T2, and, when the later row's
price passes the filter, that quote is present; this holds for both
reductions. -/
theorem C3_latest_wins_order_independent (rows : List PriceRow)
    (data : List Token) (c d : String) (r1 r2 : PriceRow) (t1 t2 : Token)
    (hr : rows.filter (fun r => decide (r.currency = c)) = [r1, r2] ∨
          rows.filter (fun r => decide (r.currency = c)) = [r2, r1])
    (hrt : r1.date < r2.date)
    (ht : data.filter (fun t => decide (t.currency = d)) = [t1, t2] ∨
          data.filter (fun t => decide (t.currency = d)) = [t2, t1])
    (htt : t1.date < t2.date) :
    (∀ q ∈ byLatestPerCurrency rows, q.symbol = c →
        q.updatedAt = r2.date) ∧
    ((r2.price.isFiniteB && r2.price.gtZero) = true →
      ({ symbol := r2.currency, priceUSD := r2.price,
         updatedAt := r2.date } : TokenMeta) ∈ byLatestPerCurrency rows) ∧
    (∀ q ∈ getLatestPrices data, q.currency = d → q.date = t2.date) ∧
    (t2.price.gtZero = true → t2 ∈ getLatestPrices data) := by
  have hg1 : mapGet (rows.foldl (latestStep PriceRow.currency
      PriceRow.date) []) c = some r2 := by
    rw [byLatest_mapGet]
    rcases hr with h | h <;> rw [h]
    · simp [selStep, hrt]
    · have hn : ¬ (r2.date < r1.date) := lt_asymm hrt
      simp [selStep, hn]
  have hg2 : mapGet (data.foldl (latestStep Token.currency Token.date) [])
      d = some t2 := by
    rw [conv_mapGet]
    rcases ht with h | h <;> rw [h]
    · simp [selStep, htt]
    · have hn : ¬ (t2.date < t1.date) := lt_asymm htt
      simp [selStep, hn]
  obtain ⟨hall1, hmem1⟩ := byLatest_lookup_out rows c r2 hg1
  obtain ⟨hall2, hmem2⟩ := conv_lookup_out data d t2 hg2
  refine ⟨fun q hq hqc => ?_, hmem1, fun q hq hqd => ?_, hmem2⟩
  · rw [hall1 q hq hqc]
  · rw [hall2 q hq hqd]

theorem C3_latest_wins_order_independent_witness :
    (([({ currency := "A", date := 1, price := JsNum.finite 5 } : PriceRow),
       { currency := "A", date := 2, price := JsNum.finite 6 }].filter
        (fun r => decide (r.currency = "A")) =
        [{ currency := "A", date := 1, price := JsNum.finite 5 },
         { currency := "A", date := 2, price := JsNum.finite 6 }]) ∧
      ((1 : Int) < 2) ∧
      ([({ currency := "C", price := JsNum.finite 2, date := 3 } : Token),
        { currency := "C", price := JsNum.finite 7, date := 4 }].filter
        (fun t => decide (t.currency = "C")) =
        [{ currency := "C", price := JsNum.finite 2, date := 3 },
         { currency := "C", price := JsNum.finite 7, date := 4 }]) ∧
      ((3 : Int) < 4)) ∧
    ((∀ q ∈ byLatestPerCurrency
        [{ currency := "A", date := 1, price := JsNum.finite 5 },
         { currency := "A", date := 2, price := JsNum.finite 6 }],
        q.symbol = "A" → q.updatedAt = 2) ∧
      (((JsNum.finite 6).isFiniteB && (JsNum.finite 6).gtZero) = true →
        ({ symbol := "A", priceUSD := JsNum.finite 6, updatedAt := 2 } :
          TokenMeta) ∈ byLatestPerCurrency
            [{ currency := "A", date := 1, price := JsNum.finite 5 },
             { currency := "A", date := 2, price := JsNum.finite 6 }]) ∧
      (∀ q ∈ getLatestPrices
        [{ currency := "C", price := JsNum.finite 2, date := 3 },
         { currency := "C", price := JsNum.finite 7, date := 4 }],
        q.currency = "C" → q.date = 4) ∧
      ((JsNum.finite 7).gtZero = true →
        ({ currency := "C", price := JsNum.finite 7, date := 4 } : Token) ∈
          getLatestPrices
            [{ currency := "C", price := JsNum.finite 2, date := 3 },
             { currency := "C", price := JsNum.finite 7, date := 4 }])) :=
  ⟨⟨by decide, by decide, by decide, by decide⟩,
    C3_latest_wins_order_independent
      [{ currency := "A", date := 1, price := JsNum.finite 5 },
       { currency := "A", date := 2, price := JsNum.finite 6 }]
      [{ currency := "C", price := JsNum.finite 2, date := 3 },
       { currency := "C", price := JsNum.finite 7, date := 4 }]
      "A" "C"
      { currency := "A", date := 1, price := JsNum.finite 5 }
      { currency := "A", date := 2, price := JsNum.finite 6 }
      { currency := "C", price := JsNum.finite 2, date := 3 }
      { currency := "C", price := JsNum.finite 7, date := 4 }
      (Or.inl (by decide)) (by decide) (Or.inl (by decide)) (by decide)⟩

/-- Claim C10: on an exact timestamp tie both reduction loops keep the
observation that occurs earlier in the input order: the strict
greater-than comparison never replaces the stored entry, so the
per-currency map holds the first row, and any output quote for that
currency is derived from it. -/
theorem C10_tie_break_first_wins (rows : List PriceRow)
    (data : List Token) (c d : String) (r1 r2 : PriceRow) (t1 t2 : Token)
    (hr : rows.filter (fun r => decide (r.currency = c)) = [r1, r2])
    (hrt : r1.date = r2.date)
    (ht : data.filter (fun t => decide (t.currency = d)) = [t1, t2])
    (htt : t1.date = t2.date) :
    mapGet (rows.foldl (latestStep PriceRow.currency PriceRow.date) []) c =
      some r1 ∧
    mapGet (data.foldl (latestStep Token.currency Token.date) []) d =
      some t1 ∧
    (∀ q ∈ byLatestPerCurrency rows, q.symbol = c →
        q = { symbol := r1.currency, priceUSD := r1.price,
              updatedAt := r1.date }) ∧
    (∀ q ∈ getLatestPrices data, q.currency = d → q = t1) := by
  have hg1 : mapGet (rows.foldl (latestStep PriceRow.currency
      PriceRow.date) []) c = some r1 := by
    rw [byLatest_mapGet, hr]
    have hn : ¬ (r1.date < r2.date) := by rw [hrt]; exact lt_irrefl _
    simp [selStep, hn]
  have hg2 : mapGet (data.foldl (latestStep Token.currency Token.date) [])
      d = some t1 := by
    rw [conv_mapGet, ht]
    have hn : ¬ (t1.date < t2.date) := by rw [htt]; exact lt_irrefl _
    simp [selStep, hn]
  obtain ⟨hall1, _⟩ := byLatest_lookup_out rows c r1 hg1
  obtain ⟨hall2, _⟩ := conv_lookup_out data d t1 hg2
  exact ⟨hg1, hg2, hall1, hall2⟩

theorem C10_tie_break_first_wins_witness :
    (([({ currency := "A", date := 7, price := JsNum.finite 5 } : PriceRow),
       { currency := "A", date := 7, price := JsNum.finite 6 }].filter
        (fun r => decide (r.currency = "A")) =
        [{ currency := "A", date := 7, price := JsNum.finite 5 },
         { currency := "A", date := 7, price := JsNum.finite 6 }]) ∧
      ([({ currency := "C", price := JsNum.finite 2, date := 9 } : Token),
        { currency := "C", price := JsNum.finite 7, date := 9 }].filter
        (fun t => decide (t.currency = "C")) =
        [{ currency := "C", price := JsNum.finite 2, date := 9 },
         { currency := "C", price := JsNum.finite 7, date := 9 }])) ∧
    (mapGet ([({ currency := "A", date := 7, price := JsNum.finite 5 } :
          PriceRow),
        { currency := "A", date := 7, price := JsNum.finite 6 }].foldl
          (latestStep PriceRow.currency PriceRow.date) []) "A" =
        some { currency := "A", date := 7, price := JsNum.finite 5 } ∧
      mapGet ([({ currency := "C", price := JsNum.finite 2, date := 9 } :
          Token),
        { currency := "C", price := JsNum.finite 7, date := 9 }].foldl
          (latestStep Token.currency Token.date) []) "C" =
        some { currency := "C", price := JsNum.finite 2, date := 9 } ∧
      (∀ q ∈ byLatestPerCurrency
          [{ currency := "A", date := 7, price := JsNum.finite 5 },
           { currency := "A", date := 7, price := JsNum.finite 6 }],
        q.symbol = "A" →
          q = { symbol := "A", priceUSD := JsNum.finite 5,
                updatedAt := 7 }) ∧
      (∀ q ∈ getLatestPrices
          [{ currency := "C", price := JsNum.finite 2, date := 9 },
           { currency := "C", price := JsNum.finite 7, date := 9 }],
        q.currency = "C" →
          q = { currency := "C", price := JsNum.finite 2, date := 9 })) :=
  ⟨⟨by decide, by decide⟩,
    C10_tie_break_first_wins
      [{ currency := "A", date := 7, price := JsNum.finite 5 },
       { currency := "A", date := 7, price := JsNum.finite 6 }]
      [{ currency := "C", price := JsNum.finite 2, date := 9 },
       { currency := "C", price := JsNum.finite 7, date := 9 }]
      "A" "C"
      { currency := "A", date := 7, price := JsNum.finite 5 }
      { currency := "A", date := 7, price := JsNum.finite 6 }
      { currency := "C", price := JsNum.finite 2, date := 9 }
      { currency := "C", price := JsNum.finite 7, date := 9 }
      (by decide) rfl (by decide) rfl⟩

/-- Claim C1: for every pair of quotes with positive (finite) prices and
all inputs, the conversion computes exactly, in source order: `rate =
fromQuote.priceUSD / toQuote.priceUSD`, `amountOut = amountIn * rate`,
`feeAmount = amountOut * (feeBps / 10000)`, `minReceived = amountOut *
(1 - slippagePct / 100) - feeAmount`; `convertCurrency` computes the same
`rate` and `convertedAmount = amountNum * rate`. -/
theorem C1_convert_formula_chain (fromQuote toQuote : CurrencyQuote)
    (amountIn feeBps slippagePct : ℚ)
    (hfrom : 0 < fromQuote.priceUSD) (hto : 0 < toQuote.priceUSD) :
    (convert fromQuote toQuote amountIn feeBps slippagePct).rate =
      fromQuote.priceUSD / toQuote.priceUSD ∧
    (convert fromQuote toQuote amountIn feeBps slippagePct).amountOut =
      amountIn *
        (convert fromQuote toQuote amountIn feeBps slippagePct).rate ∧
    (convert fromQuote toQuote amountIn feeBps slippagePct).feeAmount =
      (convert fromQuote toQuote amountIn feeBps slippagePct).amountOut *
        (feeBps / 10000) ∧
    (convert fromQuote toQuote amountIn feeBps slippagePct).minReceived =
      (convert fromQuote toQuote amountIn feeBps slippagePct).amountOut *
          (1 - slippagePct / 100) -
        (convert fromQuote toQuote amountIn feeBps slippagePct).feeAmount ∧
    (convertCurrency fromQuote.priceUSD toQuote.priceUSD amountIn).1 =
      fromQuote.priceUSD / toQuote.priceUSD ∧
    (convertCurrency fromQuote.priceUSD toQuote.priceUSD amountIn).2 =
      amountIn *
        (convertCurrency fromQuote.priceUSD toQuote.priceUSD amountIn).1 :=
  ⟨rfl, rfl, rfl, rfl, rfl, rfl⟩

theorem C1_convert_formula_chain_witness :
    ((0 : ℚ) < 3100 ∧ (0 : ℚ) < 1) ∧
    ((convert { currency := "ETH", priceUSD := 3100, asOf := 0 }
        { currency := "USDC", priceUSD := 1, asOf := 0 } 2 20 (0.5 : ℚ)).rate =
      (3100 : ℚ) / 1 ∧
    (convert { currency := "ETH", priceUSD := 3100, asOf := 0 }
        { currency := "USDC", priceUSD := 1, asOf := 0 } 2 20
        (0.5 : ℚ)).amountOut =
      2 * (convert { currency := "ETH", priceUSD := 3100, asOf := 0 }
        { currency := "USDC", priceUSD := 1, asOf := 0 } 2 20 (0.5 : ℚ)).rate ∧
    (convert { currency := "ETH", priceUSD := 3100, asOf := 0 }
        { currency := "USDC", priceUSD := 1, asOf := 0 } 2 20
        (0.5 : ℚ)).feeAmount =
      (convert { currency := "ETH", priceUSD := 3100, asOf := 0 }
        { currency := "USDC", priceUSD := 1, asOf := 0 } 2 20
        (0.5 : ℚ)).amountOut * (20 / 10000) ∧
    (convert { currency := "ETH", priceUSD := 3100, asOf := 0 }
        { currency := "USDC", priceUSD := 1, asOf := 0 } 2 20
        (0.5 : ℚ)).minReceived =
      (convert { currency := "ETH", priceUSD := 3100, asOf := 0 }
          { currency := "USDC", priceUSD := 1, asOf := 0 } 2 20
          (0.5 : ℚ)).amountOut * (1 - (0.5 : ℚ) / 100) -
        (convert { currency := "ETH", priceUSD := 3100, asOf := 0 }
          { currency := "USDC", priceUSD := 1, asOf := 0 } 2 20
          (0.5 : ℚ)).feeAmount ∧
    (convertCurrency 3100 1 2).1 = (3100 : ℚ) / 1 ∧
    (convertCurrency 3100 1 2).2 = 2 * (convertCurrency 3100 1 2).1) :=
  ⟨⟨by norm_num, by norm_num⟩,
    C1_convert_formula_chain
      { currency := "ETH", priceUSD := 3100, asOf := 0 }
      { currency := "USDC", priceUSD := 1, asOf := 0 }
      2 20 (0.5 : ℚ) (by norm_num) (by norm_num)⟩

/-- Claim C5 counterexample: at `fromQuote.priceUSD = 3100`,
`toQuote.priceUSD = 1`, `amountIn = 2`, `feeBps = 20`,
`slippagePct = 0.5`, the computed `minReceived` is not the claimed
`6157.6`. -/
theorem C5_counterexample_minReceived :
    (convert { currency := "ETH", priceUSD := 3100, asOf := 0 }
        { currency := "USDC", priceUSD := 1, asOf := 0 } 2 20
        (0.5 : ℚ)).minReceived ≠ (6157.6 : ℚ) := by
  norm_num [convert]

/-- Claim C5 (amended): for those inputs the conversion returns
`rate = 3100`, `amountOut = 6200`, `feeAmount = 12.4` and
`minReceived = 6200 * 0.995 - 12.4 = 6169 - 12.4 = 6156.6`; the claimed
`6157.6` is an arithmetic slip in the scenario. -/
theorem C5_amended_scenario3 :
    convert { currency := "ETH", priceUSD := 3100, asOf := 0 }
        { currency := "USDC", priceUSD := 1, asOf := 0 } 2 20 (0.5 : ℚ) =
      { rate := 3100, amountOut := 6200, feeAmount := (12.4 : ℚ),
        minReceived := (6156.6 : ℚ) } := by
  norm_num [convert, ConversionResult.mk.injEq]

/-- Claim C6: converting a quote to itself with `feeBps = 0` and
`slippagePct = 0` yields `rate = 1` and `amountOut = amountIn`, for the
swap-form arithmetic and for `convertCurrency` alike. -/
theorem C6_round_trip_identity (q : CurrencyQuote) (amountIn : ℚ)
    (hq : 0 < q.priceUSD) (ha : 0 < amountIn) :
    (convert q q amountIn 0 0).rate = 1 ∧
    (convert q q amountIn 0 0).amountOut = amountIn ∧
    (convertCurrency q.priceUSD q.priceUSD amountIn).1 = 1 ∧
    (convertCurrency q.priceUSD q.priceUSD amountIn).2 = amountIn := by
  have hne : q.priceUSD ≠ 0 := ne_of_gt hq
  have hrate : q.priceUSD / q.priceUSD = 1 := div_self hne
  refine ⟨hrate, ?_, hrate, ?_⟩
  · show amountIn * (q.priceUSD / q.priceUSD) = amountIn
    rw [hrate, mul_one]
  · show amountIn * (q.priceUSD / q.priceUSD) = amountIn
    rw [hrate, mul_one]

theorem C6_round_trip_identity_witness :
    ((0 : ℚ) < 3100 ∧ (0 : ℚ) < 2) ∧
    ((convert { currency := "ETH", priceUSD := 3100, asOf := 0 }
        { currency := "ETH", priceUSD := 3100, asOf := 0 } 2 0 0).rate = 1 ∧
    (convert { currency := "ETH", priceUSD := 3100, asOf := 0 }
        { currency := "ETH", priceUSD := 3100, asOf := 0 } 2 0 0).amountOut =
      2 ∧
    (convertCurrency 3100 3100 2).1 = 1 ∧
    (convertCurrency 3100 3100 2).2 = 2) :=
  ⟨⟨by norm_num, by norm_num⟩,
    C6_round_trip_identity
      { currency := "ETH", priceUSD := 3100, asOf := 0 } 2
      (by norm_num) (by norm_num)⟩
